import Mathlib

/-!
Verification development for the `hdu` disk-usage tool (source file `hdu/hdu.py`).

Modelling conventions (shallow embedding):
* Python strings are modelled as `List Char` (abbreviated `Str`); `os.path.sep`
  is the single character `'/'`.
* Python `dict`s (insertion ordered) are association lists `List (Str × Nat)`;
  `d[k] = v` is `dictSet` (replace in place if present, else append) and
  `d[k] += v` is `dictAdd` (update the first, and only, occurrence).
* Machine integers and byte sizes are `Nat`; `max_depth` (which may be
  negative, meaning unlimited) is `Int`.
* Python floats are modelled by exact rationals `ℚ`; `math.log(size, base)`
  is modelled exactly (see `logFloor`); `round` / `'{:.Nf}'` formatting use
  round-half-to-even (`rndHalfEven`), which is Python 3 semantics.
* Fallible operations (sequence indexing that can raise `IndexError`) return
  `Option`.
* The traversal `walk2` performs filesystem I/O; `disk_usage` is therefore
  embedded as a fold (`duRun`) over the list of visits `walk2` yields, each
  visit carrying the path relative to the (separator-stripped) base, its
  `st_size`, and whether it is a directory.  `depth` in the source is
  `path.count(os.path.sep) - base_depth - 1`, which for `path = base + '/' +
  subpath` equals the number of separators in `subpath` (`countSep`).
-/

set_option maxHeartbeats 1000000

abbrev Str := List Char

/-- Sum of the values of an association list (a Python dict's `.values()`). -/
def sumValues (d : List (Str × Nat)) : Nat :=
  (d.map Prod.snd).sum

/-- Keys of an association list (a Python dict's `.keys()`), in order. -/
def keysOf (d : List (Str × Nat)) : List Str :=
  d.map Prod.fst

/-- Python `d[k]` lookup (first matching key). -/
def dictGet : List (Str × Nat) → Str → Option Nat
  | [], _ => none
  | (k', v') :: rest, k => if k' = k then some v' else dictGet rest k

/-- Python `d[k] = v`: replace the value if the key is present, else append. -/
def dictSet : List (Str × Nat) → Str → Nat → List (Str × Nat)
  | [], k, v => [(k, v)]
  | (k', v') :: rest, k, v =>
    if k' = k then (k, v) :: rest else (k', v') :: dictSet rest k v

/-- Python `d[k] += v` for a key known to be present (updates the first,
and in a dict the only, occurrence; leaves the list unchanged otherwise). -/
def dictAdd : List (Str × Nat) → Str → Nat → List (Str × Nat)
  | [], _, _ => []
  | (k', v') :: rest, k, v =>
    if k' = k then (k', v' + v) :: rest else (k', v') :: dictAdd rest k v

/-- One path yielded by `walk2`: its path relative to the stripped base
(`subpath` in `disk_usage`), its `stats.st_size`, and `os.path.isdir(path)`. -/
structure Visit where
  subpath : Str
  size : Nat
  isDir : Bool
deriving DecidableEq

/-- Number of `os.path.sep` occurrences in a relative path: the `depth` of
`disk_usage` (`path.count(os.path.sep) - base_depth - 1`). -/
def countSep (s : Str) : Nat :=
  s.count '/'

/-- The key normalisation inside the rollup loop of `disk_usage`:
`key[:-len(os.path.sep)] if key.endswith(os.path.sep) else key`. -/
def stripSep (key : Str) : Str :=
  if key.getLast? = some '/' then key.dropLast else key

/-- The rollup loop of `disk_usage` (lines 187-194): scan the recorded
directory entries in insertion order and return the first key whose
separator-stripped form is a prefix of `subpath` (Python
`subpath.startswith(key_str)`), stopping at the `break`. -/
def findFoldKey : List (Str × Nat) → Str → Option Str
  | [], _ => none
  | (k, _) :: rest, subpath =>
    if (stripSep k).isPrefixOf subpath then some k else findFoldKey rest subpath

/-- State threaded through the main loop of `disk_usage`.  `absorbed` is
instrumentation not present in the source: it accumulates the sizes of the
visits that matched no recorded directory entry and hence were absorbed only
into `total_size`. -/
structure DUState where
  items : List (Str × Nat)
  dir_items : List (Str × Nat)
  total_size : Nat
  num_files : Nat
  num_dirs : Nat
  absorbed : Nat
deriving DecidableEq

/-- The guard `(max_depth < 0 or depth < max_depth) and is_displayed` of
`disk_usage`, with `is_displayed = (not only_dir) or only_dir and is_dir`. -/
def duRecorded (only_dir : Bool) (max_depth : Int) (v : Visit) : Bool :=
  (decide (max_depth < 0) || decide ((countSep v.subpath : Int) < max_depth)) &&
    (!only_dir || (only_dir && v.isDir))

/-- One iteration of the `for path, stats in paths` loop of `disk_usage`. -/
def duStep (only_dir : Bool) (max_depth : Int) (st : DUState) (v : Visit) : DUState :=
  let st1 :=
    if duRecorded only_dir max_depth v then
      if v.isDir then { st with dir_items := dictSet st.dir_items v.subpath v.size }
      else { st with items := dictSet st.items v.subpath v.size }
    else
      match findFoldKey st.dir_items v.subpath with
      | some k => { st with dir_items := dictAdd st.dir_items k v.size }
      | none => { st with absorbed := st.absorbed + v.size }
  { st1 with
    total_size := st1.total_size + v.size
    num_files := if v.isDir then st1.num_files else st1.num_files + 1
    num_dirs := if v.isDir then st1.num_dirs + 1 else st1.num_dirs }

/-- The whole loop of `disk_usage`, starting from `items = {}`,
`dir_items = {}`, `total_size = os.path.getsize(base)` (the parameter
`base_size`), `num_files, num_dirs = 0, 1`. -/
def duRun (base_size : Nat) (only_dir : Bool) (max_depth : Int)
    (visits : List Visit) : DUState :=
  visits.foldl (duStep only_dir max_depth) ⟨[], [], base_size, 0, 1, 0⟩

/-- Line 200 of `disk_usage`:
`items.update({k + os.path.sep: v for k, v in dir_items.items()})`. -/
def duMerge (items dir_items : List (Str × Nat)) : List (Str × Nat) :=
  dir_items.foldl (fun acc kv => dictSet acc (kv.1 ++ ['/']) kv.2) items

/-- The `items` dictionary returned by `disk_usage`. -/
def duEntries (st : DUState) : List (Str × Nat) :=
  duMerge st.items st.dir_items

/-- Invariant carried through the `disk_usage` loop: the total accounts
exactly for the recorded file entries, the recorded directory entries and the
absorbed sizes; recorded keys are distinct and never end in a separator. -/
def DUInv (base_size : Nat) (st : DUState) : Prop :=
  st.total_size =
    base_size + sumValues st.items + sumValues st.dir_items + st.absorbed ∧
  (keysOf st.items).Nodup ∧ (keysOf st.dir_items).Nodup ∧
  (∀ k ∈ keysOf st.items, k.getLast? ≠ some '/') ∧
  (∀ k ∈ keysOf st.dir_items, k.getLast? ≠ some '/')

/-- What actually happens to a visit that is not recorded as its own entry and
matches some recorded key: the matched key `k` receives the size, `k` is a
(separator-stripped) prefix of the visit's relative path, and `k` is the
FIRST such key in dictionary insertion order — every earlier recorded
directory entry fails the prefix test. -/
def C1Concl (od : Bool) (md : Int) (st : DUState) (v : Visit) (k : Str) : Prop :=
  (duStep od md st v).dir_items = dictAdd st.dir_items k v.size ∧
  (stripSep k).isPrefixOf v.subpath = true ∧
  ∃ d₁ d₂ n, st.dir_items = d₁ ++ (k, n) :: d₂ ∧
    ∀ p ∈ d₁, (stripSep p.1).isPrefixOf v.subpath = false

/-- The accounting identity of `disk_usage`: recorded entries plus absorbed
sizes plus the root's own size make up `total_size`, and `total_size`
dominates the sum of the recorded entries. -/
def C2Concl (base_size : Nat) (only_dir : Bool) (max_depth : Int)
    (visits : List Visit) : Prop :=
  sumValues (duEntries (duRun base_size only_dir max_depth visits)) +
      (duRun base_size only_dir max_depth visits).absorbed + base_size =
    (duRun base_size only_dir max_depth visits).total_size ∧
  sumValues (duEntries (duRun base_size only_dir max_depth visits)) ≤
    (duRun base_size only_dir max_depth visits).total_size

/-- Round a rational to the nearest integer, ties to even: the rounding Python 3
applies in `round` and in `'{:.Nf}'` float formatting (our rationals model the
exactly representable doubles arising in the program). -/
def rndHalfEven (q : ℚ) : Int :=
  let f := q.floor
  let frac := q - (f : ℚ)
  if frac < 1 / 2 then f
  else if 1 / 2 < frac then f + 1
  else if f % 2 = 0 then f else f + 1

/-- Python `str` of a non-negative integer, as a character list. -/
def natStr (n : Nat) : Str :=
  Nat.toDigits 10 n

/-- Left-pad with a character to a minimum width (Python right justification). -/
def padLeft (c : Char) (w : Nat) (s : Str) : Str :=
  List.replicate (w - s.length) c ++ s

/-- Python `'{:W.Pf}'.format(q)` for a non-negative value: round half-to-even at
`P` decimals, print with exactly `P` decimals, right-justify to width `W`. -/
def formatF (q : ℚ) (w p : Nat) : Str :=
  let n : Nat := (rndHalfEven (q * (10 : ℚ) ^ p)).toNat
  let s : Str :=
    if p = 0 then natStr n
    else natStr (n / 10 ^ p) ++ '.' :: padLeft '0' p (natStr (n % 10 ^ p))
  padLeft ' ' w s

/-- `_adjust_format(value, order, num_chars=MAX_CHAR_SIZE)` from the source:
`len_integral_part = len(str(int(value)))` (truncation; the value is
non-negative in every call), precision `0` when `len_integral_part + 1 >
num_chars` or `order == 0`, else `num_chars - len_integral_part - 1`, rendered
by `'{:3.{precision}f}'`. -/
def _adjust_format (value : ℚ) (order : Nat) (num_chars : Nat := 4) : Str :=
  let len_integral_part := (natStr value.floor.toNat).length
  if len_integral_part + 1 > num_chars ∨ order = 0 then formatF value 3 0
  else formatF value 3 (num_chars - len_integral_part - 1)

/-- Fuel-driven floored logarithm: `logFloorAux B size fuel` counts how many
times `size` can be divided by `B` before falling below `B`. -/
def logFloorAux (B : Nat) : Nat → Nat → Nat
  | _, 0 => 0
  | size, fuel + 1 => if size < B then 0 else logFloorAux B (size / B) fuel + 1

/-- Floored base-`B` logarithm of a positive integer (fuel `size` suffices for
every base `B ≥ 2`). -/
def logFloor (B size : Nat) : Nat :=
  logFloorAux B size size

/-- `_fix_size(size, base, exp)` from the source, in exact arithmetic.  The
source computes `order = int(round(math.log(size, base) // exp)) if size > 0
else 0`; since `//` already floors, `round` is the identity there, and
`⌊log_base(size) / exp⌋ = ⌊log_{base^exp}(size)⌋ = logFloor (base^exp) size`
for `size ≥ 1`.  `new_size = size / (base ** exp) ** order` is exact division
in `ℚ`. -/
def _fix_size (size : Nat) (base exp : Nat) : ℚ × Nat :=
  let order := if 0 < size then logFloor (base ^ exp) size else 0
  ((size : ℚ) / ((base : ℚ) ^ exp) ^ order, order)

/-- `UNITS_PREFIX = ('k', 'M', 'G', 'T', 'P', 'E', 'Z', 'Y')` from the source
(joined into the string `prefix_str`). -/
def MAG_CHARS : Str := ['k', 'M', 'G', 'T', 'P', 'E', 'Z', 'Y']

/-- `prefix_str.upper()` from `humanize`. -/
def MAG_CHARS_UPPER : Str := MAG_CHARS.map Char.toUpper

/-- `_to_units(o)` from the source: `prefix_str[o - 1] if o > 0 else 'B'`;
indexing out of range raises `IndexError`, modelled by `none`. -/
def _to_units (o : Nat) : Option Char :=
  if 0 < o then MAG_CHARS[o - 1]? else some 'B'

/-- The explicit-units test of `humanize` (lines 283-284):
`re.match('[kMGTPEZY]B', units) or re.match('[KMGTPEZY](iB)?', units)`.
`re.match` anchors at the start only, so the first regex needs the first
character in `prefix_str` (case-sensitively: lowercase `k`, uppercase rest)
followed by a literal `B`, and the second needs the first character in
`prefix_str.upper()` — the optional `(iB)?` group constrains nothing. -/
def explicitCond : Str → Bool
  | c0 :: c1 :: _ => (MAG_CHARS.contains c0 && c1 == 'B') || MAG_CHARS_UPPER.contains c0
  | [c0] => MAG_CHARS_UPPER.contains c0
  | [] => false

/-- Python's substring test `needle in haystack`. -/
def strIn (needle : Str) : Str → Bool
  | [] => needle.isEmpty
  | c :: rest => needle.isPrefixOf (c :: rest) || strIn needle rest

def unixStr : Str := ['u', 'n', 'i', 'x']

def iecStr : Str := ['i', 'e', 'c']

def siStr : Str := ['s', 'i']

/-- `humanize(size, units)` from the source.  The implicit branches can raise
`IndexError` through `_to_units`, hence `Option`.  Note the faithful quirks:
the explicit test is `explicitCond` (anchored `re.match`); the first implicit
test is Python's substring test `units.lower() in 'unix'`; `iec_units` is
`len(units) == 1 or 3 >= len(units) > 1 and units[1] == 'i'`. -/
def humanize (size : Nat) (units : Str) : Option (Str × Str) :=
  if explicitCond units then
    let order := MAG_CHARS_UPPER.indexOf (units.headD ' ').toUpper + 1
    let iec_units := decide (units.length = 1) ||
      (decide (units.length ≤ 3) && decide (1 < units.length) &&
        ((units.drop 1).headD ' ' == 'i'))
    let be : Nat × Nat := if iec_units then (2, 10) else (10, 3)
    some (_adjust_format ((size : ℚ) / ((be.1 : ℚ) ^ be.2) ^ order) order, units)
  else if strIn (units.map Char.toLower) unixStr then
    let p := _fix_size size 2 10
    (_to_units p.2).map fun c => (_adjust_format p.1 p.2, [c.toUpper])
  else if units.map Char.toLower = iecStr then
    let p := _fix_size size 2 10
    (_to_units p.2).map fun c =>
      (_adjust_format p.1 p.2, c.toUpper :: (if 0 < p.2 then ['i', 'B'] else []))
  else if units.map Char.toLower = siStr then
    let p := _fix_size size 10 3
    (_to_units p.2).map fun c =>
      (_adjust_format p.1 p.2, c :: (if 0 < p.2 then ['B'] else []))
  else
    some (natStr size, ['B'])

/-- Normalise a Python slice endpoint: a negative index counts from the end
(clamped at 0), a non-negative one is clamped at the length. -/
def pyIndex (len : Nat) (i : Int) : Nat :=
  if i < 0 then (len + i).toNat else min i.toNat len

/-- Python `s[a:b]` (no step). -/
def pySlice (s : Str) (a b : Int) : Str :=
  (s.take (pyIndex s.length b)).drop (pyIndex s.length a)

/-- Python `s * n` (string repetition). -/
def strRepeat (s : Str) (n : Nat) : Str :=
  (List.replicate n s).flatten

/-- `progress_bar(factor, size, fill, empty, pre, post)` from the source:
clamp `factor` above at `1.0`, `fill_size = int(round(factor * size))` (an
`Int`: a negative factor yields a negative slice index), then assemble
`(fill * (size // len(fill) + 1))[0:fill_size] +
(empty * (size // len(empty) + 1))[fill_size:size]` between `pre` and `post`
(an empty `pre`/`post` is falsy in Python and replaced by `''`, which is the
same string). -/
def progress_bar (factor : ℚ) (size : Nat) (fill : Str := ['='])
    (empty : Str := [' ']) (pre : Str := ['[']) (post : Str := [']']) : Str :=
  let factor := if 1 < factor then 1 else factor
  let fill_size : Int := rndHalfEven (factor * (size : ℚ))
  let text := pySlice (strRepeat fill (size / fill.length + 1)) 0 fill_size ++
    pySlice (strRepeat empty (size / empty.length + 1)) fill_size (size : Int)
  pre ++ text ++ post

/-- Python string comparison: lexicographic on code points. -/
def strLe : Str → Str → Bool
  | [], _ => true
  | _ :: _, [] => false
  | a :: as, b :: bs => if a < b then true else if b < a then false else strLe as bs

/-- Stable insertion: place `x` before the first element `y` with
`r x y = false`.  With a total preorder `r` this realises Python's stable
`sorted` (stable sorts agree on their output). -/
def sInsert (r : α → α → Bool) (x : α) : List α → List α
  | [] => [x]
  | y :: ys => if r x y then x :: y :: ys else y :: sInsert r x ys

/-- Stable sort by the Boolean preorder `r` (insertion sort). -/
def sSort (r : α → α → Bool) : List α → List α
  | [] => []
  | x :: xs => sInsert r x (sSort r xs)

def nameKeyStr : Str := ['n', 'a', 'm', 'e']

def sizeKeyStr : Str := ['s', 'i', 'z', 'e']

def revSufStr : Str := ['_', 'r']

/-- The element comparison of `disk_usage_to_str` (lines 349-360): the sort
key is `x[0]` (the name) when `sort_by` starts with `'name'`, `x[1]` (the
size) when it starts with `'size'`, and the name again on the unknown-key
fallback; `reverse = sort_by.endswith('_r')` flips the comparison
(`sorted(..., reverse=True)` is still stable). -/
def sortCmp (sort_by : Str) (a b : Str × Nat) : Bool :=
  let index : Nat :=
    if nameKeyStr.isPrefixOf sort_by then 0
    else if sizeKeyStr.isPrefixOf sort_by then 1
    else 0
  let reverse := revSufStr.isSuffixOf sort_by
  if index = 0 then (if reverse then strLe b.1 a.1 else strLe a.1 b.1)
  else (if reverse then decide (b.2 ≤ a.2) else decide (a.2 ≤ b.2))

/-- Whether the `'{}: unknown sorting. Fall back to: name'` warning of
`disk_usage_to_str` fires: exactly when `sort_by` starts with neither
`'name'` nor `'size'`. -/
def sortWarn (sort_by : Str) : Bool :=
  !(nameKeyStr.isPrefixOf sort_by || sizeKeyStr.isPrefixOf sort_by)

/-- The sorting stage of `disk_usage_to_str`:
`sorted(list(contents.items()), key=lambda x: x[index], reverse=reverse)`,
together with the unknown-sort warning flag (instrumenting
`warnings.warn`). -/
def sortEntries (sort_by : Str) (contents : List (Str × Nat)) :
    List (Str × Nat) × Bool :=
  (sSort (sortCmp sort_by) contents, sortWarn sort_by)

/-- Spec-side definition, following the words of the spec for the implicit
`unix`/`iec` modes: auto-selected order `round(log_1024(size))` clamped to be
at least `0`, with order `0` for `size = 0`. -/
noncomputable def specRoundOrder (size : Nat) : Int :=
  if size = 0 then 0 else max 0 (round (Real.logb 1024 (size : ℝ)))

/-- What the implicit binary modes (`unix` and `iec`) actually do with a
positive size: the selected order `o` satisfies `1024^o ≤ size < 1024^(o+1)`
(it is the FLOOR of `log_1024 size`), and the rendered numeric value is
`size / 1024^o`. -/
def C3Concl (size : Nat) : Prop :=
  1024 ^ (_fix_size size 2 10).2 ≤ size ∧
  size < 1024 ^ ((_fix_size size 2 10).2 + 1) ∧
  (_fix_size size 2 10).1 = (size : ℚ) / (1024 : ℚ) ^ (_fix_size size 2 10).2 ∧
  humanize size unixStr =
    (_to_units (_fix_size size 2 10).2).map (fun c =>
      (_adjust_format ((size : ℚ) / (1024 : ℚ) ^ (_fix_size size 2 10).2)
        (_fix_size size 2 10).2, [c.toUpper])) ∧
  humanize size iecStr =
    (_to_units (_fix_size size 2 10).2).map (fun c =>
      (_adjust_format ((size : ℚ) / (1024 : ℚ) ^ (_fix_size size 2 10).2)
        (_fix_size size 2 10).2,
        c.toUpper :: (if 0 < (_fix_size size 2 10).2 then ['i', 'B'] else [])))

/-- What `humanize` actually does on the explicit tokens it recognises, for
the letter at 0-based index `i` of the prefix set: a single uppercase letter
is treated as BINARY (divide by `1024^(i+1)`), an uppercase letter followed
by `iB` is binary, and a prefix-set letter followed by `B` is DECIMAL
(divide by `1000^(i+1)`); the literal token is returned as the unit string. -/
def C5Concl (i size : Nat) : Prop :=
  humanize size [MAG_CHARS_UPPER.getD i ' '] =
    some (_adjust_format ((size : ℚ) / (1024 : ℚ) ^ (i + 1)) (i + 1),
      [MAG_CHARS_UPPER.getD i ' ']) ∧
  humanize size [MAG_CHARS_UPPER.getD i ' ', 'i', 'B'] =
    some (_adjust_format ((size : ℚ) / (1024 : ℚ) ^ (i + 1)) (i + 1),
      [MAG_CHARS_UPPER.getD i ' ', 'i', 'B']) ∧
  humanize size [MAG_CHARS.getD i ' ', 'B'] =
    some (_adjust_format ((size : ℚ) / (1000 : ℚ) ^ (i + 1)) (i + 1),
      [MAG_CHARS.getD i ' ', 'B'])

theorem sanity_duRun :
    duEntries (duRun 10 false 2
      [⟨['a'], 1, true⟩, ⟨['a', '/', 'b'], 2, true⟩, ⟨['a', '/', 'b', '/', 'c'], 4, false⟩]) =
      [(['a', '/'], 5), (['a', '/', 'b', '/'], 2)] := by
  with_unfolding_all decide

theorem sanity_humanize_unix :
    humanize 2048 unixStr = some (['2', '.', '0', '0'], ['K']) := by
  with_unfolding_all decide

theorem sanity_humanize_x :
    humanize 2048 ['x'] = some (['2', '.', '0', '0'], ['K']) := by
  with_unfolding_all decide

theorem sanity_humanize_else :
    humanize 2048 ['f', 'o', 'o'] = some (['2', '0', '4', '8'], ['B']) := by
  with_unfolding_all decide

theorem sanity_humanize_K :
    humanize 2000 ['K'] = some (['1', '.', '9', '5'], ['K']) := by
  with_unfolding_all decide

theorem sanity_humanize_KiB0 :
    humanize 0 ['K', 'i', 'B'] = some (['0', '.', '0', '0'], ['K', 'i', 'B']) := by
  with_unfolding_all decide

theorem sanity_humanize_zero :
    humanize 0 unixStr = some ([' ', ' ', '0'], ['B']) := by
  with_unfolding_all decide

theorem findFoldKey_eq_some {d : List (Str × Nat)} {s k : Str}
    (h : findFoldKey d s = some k) :
    (stripSep k).isPrefixOf s = true ∧
      ∃ d₁ d₂ n, d = d₁ ++ (k, n) :: d₂ ∧
        ∀ p ∈ d₁, (stripSep p.1).isPrefixOf s = false := by
  induction d with
  | nil => simp [findFoldKey] at h
  | cons hd tl ih =>
    obtain ⟨k', v'⟩ := hd
    by_cases hp : (stripSep k').isPrefixOf s
    · rw [findFoldKey, if_pos hp] at h
      obtain rfl : k' = k := by simpa using h
      exact ⟨hp, [], tl, v', rfl, by simp⟩
    · rw [findFoldKey, if_neg hp] at h
      obtain ⟨hpre, d₁, d₂, n, heq, hall⟩ := ih h
      refine ⟨hpre, (k', v') :: d₁, d₂, n, by simp [heq], ?_⟩
      rintro p hp'
      rcases List.mem_cons.1 hp' with rfl | hmem
      · exact Bool.eq_false_iff.mpr hp
      · exact hall p hmem

theorem findFoldKey_mem {d : List (Str × Nat)} {s k : Str}
    (h : findFoldKey d s = some k) : k ∈ keysOf d := by
  obtain ⟨-, d₁, d₂, n, rfl, -⟩ := findFoldKey_eq_some h
  simp [keysOf]

theorem keysOf_dictAdd (d : List (Str × Nat)) (k : Str) (v : Nat) :
    keysOf (dictAdd d k v) = keysOf d := by
  induction d with
  | nil => rfl
  | cons hd tl ih =>
    obtain ⟨k', v'⟩ := hd
    by_cases hk : k' = k <;> simp [dictAdd, hk, keysOf] <;>
      simpa [keysOf] using ih

theorem sumValues_dictAdd {d : List (Str × Nat)} {k : Str} (v : Nat)
    (h : k ∈ keysOf d) : sumValues (dictAdd d k v) = sumValues d + v := by
  induction d with
  | nil => simp [keysOf] at h
  | cons hd tl ih =>
    obtain ⟨k', v'⟩ := hd
    by_cases hk : k' = k
    · simp [dictAdd, hk, sumValues]
      omega
    · have hmem : k ∈ keysOf tl := by
        rcases List.mem_cons.1 h with h' | h'
        · exact absurd h'.symm hk
        · exact h'
      simp [dictAdd, hk, sumValues] at ih ⊢
      have := ih hmem
      omega

theorem keysOf_dictSet_fresh {d : List (Str × Nat)} {k : Str} (v : Nat)
    (h : k ∉ keysOf d) : keysOf (dictSet d k v) = keysOf d ++ [k] := by
  induction d with
  | nil => rfl
  | cons hd tl ih =>
    obtain ⟨k', v'⟩ := hd
    have hk : k' ≠ k := by
      intro hk; exact h (by simp [keysOf, hk])
    have htl : k ∉ keysOf tl := fun hm => h (by simp [keysOf] at hm ⊢; tauto)
    have ih' := ih htl
    simp only [dictSet, if_neg hk, keysOf, List.map_cons] at ih' ⊢
    simp [ih']

theorem sumValues_dictSet_fresh {d : List (Str × Nat)} {k : Str} (v : Nat)
    (h : k ∉ keysOf d) : sumValues (dictSet d k v) = sumValues d + v := by
  induction d with
  | nil => simp [dictSet, sumValues]
  | cons hd tl ih =>
    obtain ⟨k', v'⟩ := hd
    have hk : k' ≠ k := by
      intro hk; exact h (by simp [keysOf, hk])
    have htl : k ∉ keysOf tl := fun hm => h (by simp [keysOf] at hm ⊢; tauto)
    have ih' := ih htl
    simp only [dictSet, if_neg hk, sumValues, List.map_cons, List.sum_cons] at ih' ⊢
    omega

theorem duStep_inv {bs : Nat} (od : Bool) (md : Int) {st : DUState} {v : Visit}
    (hinv : DUInv bs st)
    (hfi : v.subpath ∉ keysOf st.items) (hfd : v.subpath ∉ keysOf st.dir_items)
    (hsep : v.subpath.getLast? ≠ some '/') :
    DUInv bs (duStep od md st v) ∧
    (∀ k ∈ keysOf (duStep od md st v).items,
      k ∈ keysOf st.items ∨ k = v.subpath) ∧
    (∀ k ∈ keysOf (duStep od md st v).dir_items,
      k ∈ keysOf st.dir_items ∨ k = v.subpath) := by
  obtain ⟨htot, hni, hnd, hsi, hsd⟩ := hinv
  by_cases hrec : duRecorded od md v = true
  · by_cases hdir : v.isDir = true
    · simp only [duStep, hrec, if_true, hdir]
      refine ⟨⟨?_, ?_, ?_, ?_, ?_⟩, ?_, ?_⟩
      · simp only [sumValues_dictSet_fresh v.size hfd]
        omega
      · simpa using hni
      · rw [keysOf_dictSet_fresh v.size hfd]
        simp [List.Nodup.append, List.nodup_append, hnd, hfd]
      · simpa using hsi
      · rw [keysOf_dictSet_fresh v.size hfd]
        intro k hk
        rcases List.mem_append.1 hk with h | h
        · exact hsd k h
        · simp at h; subst h; exact hsep
      · intro k hk; exact Or.inl hk
      · rw [keysOf_dictSet_fresh v.size hfd]
        intro k hk
        rcases List.mem_append.1 hk with h | h
        · exact Or.inl h
        · simp at h; exact Or.inr h
    · simp only [duStep, hrec, if_true, hdir, if_false, Bool.false_eq_true]
      refine ⟨⟨?_, ?_, ?_, ?_, ?_⟩, ?_, ?_⟩
      · simp only [sumValues_dictSet_fresh v.size hfi]
        omega
      · rw [keysOf_dictSet_fresh v.size hfi]
        simp [List.nodup_append, hni, hfi]
      · simpa using hnd
      · rw [keysOf_dictSet_fresh v.size hfi]
        intro k hk
        rcases List.mem_append.1 hk with h | h
        · exact hsi k h
        · simp at h; subst h; exact hsep
      · simpa using hsd
      · rw [keysOf_dictSet_fresh v.size hfi]
        intro k hk
        rcases List.mem_append.1 hk with h | h
        · exact Or.inl h
        · simp at h; exact Or.inr h
      · intro k hk; exact Or.inl hk
  · cases hf : findFoldKey st.dir_items v.subpath with
    | some k =>
      have hkmem := findFoldKey_mem hf
      simp only [duStep, hrec, if_false, hf, Bool.false_eq_true]
      refine ⟨⟨?_, ?_, ?_, ?_, ?_⟩, ?_, ?_⟩
      · simp only [sumValues_dictAdd v.size hkmem]
        omega
      · simpa using hni
      · simpa [keysOf_dictAdd] using hnd
      · simpa using hsi
      · simpa [keysOf_dictAdd] using hsd
      · intro k' hk'; exact Or.inl hk'
      · intro k' hk'; rw [keysOf_dictAdd] at hk'; exact Or.inl hk'
    | none =>
      simp only [duStep, hrec, if_false, hf, Bool.false_eq_true]
      refine ⟨⟨?_, ?_, ?_, ?_, ?_⟩, ?_, ?_⟩
      · dsimp only
        omega
      · simpa using hni
      · simpa using hnd
      · simpa using hsi
      · simpa using hsd
      · intro k' hk'; exact Or.inl hk'
      · intro k' hk'; exact Or.inl hk'

theorem duFold_inv {bs : Nat} (od : Bool) (md : Int) :
    ∀ (visits : List Visit) (st : DUState), DUInv bs st →
      (∀ v ∈ visits, v.subpath ∉ keysOf st.items ∧ v.subpath ∉ keysOf st.dir_items) →
      (visits.map Visit.subpath).Nodup →
      (∀ v ∈ visits, (Visit.subpath v).getLast? ≠ some '/') →
      DUInv bs (visits.foldl (duStep od md) st)
  | [], st, hinv, _, _, _ => hinv
  | v :: tl, st, hinv, hfresh, hnd, hsep => by
    rw [List.foldl_cons]
    have hv := hfresh v (List.mem_cons_self v tl)
    obtain ⟨hstep, hki, hkd⟩ :=
      duStep_inv od md hinv hv.1 hv.2 (hsep v (List.mem_cons_self v tl))
    refine duFold_inv od md tl (duStep od md st v) hstep ?_ ?_ ?_
    · intro w hw
      have hw' := hfresh w (List.mem_cons_of_mem v hw)
      have hne : w.subpath ≠ v.subpath := by
        simp only [List.map_cons, List.nodup_cons] at hnd
        intro he
        exact hnd.1 (he ▸ List.mem_map_of_mem Visit.subpath hw)
      constructor
      · intro hmem
        rcases hki w.subpath hmem with h | h
        · exact hw'.1 h
        · exact hne h
      · intro hmem
        rcases hkd w.subpath hmem with h | h
        · exact hw'.2 h
        · exact hne h
    · simp only [List.map_cons, List.nodup_cons] at hnd
      exact hnd.2
    · intro w hw
      exact hsep w (List.mem_cons_of_mem v hw)

theorem sumValues_duMerge :
    ∀ (dir items : List (Str × Nat)), (keysOf dir).Nodup →
      (∀ k ∈ keysOf dir, (k ++ ['/']) ∉ keysOf items) →
      sumValues (duMerge items dir) = sumValues items + sumValues dir
  | [], items, _, _ => by simp [duMerge, sumValues]
  | (k, v) :: tl, items, hnd, hfresh => by
    have hk : (k ++ ['/']) ∉ keysOf items :=
      hfresh k (by simp [keysOf])
    have hnd' : (keysOf tl).Nodup := by
      simp only [keysOf, List.map_cons, List.nodup_cons] at hnd
      exact hnd.2
    have hfresh' : ∀ k' ∈ keysOf tl,
        (k' ++ ['/']) ∉ keysOf (dictSet items (k ++ ['/']) v) := by
      intro k' hk' hmem
      rw [keysOf_dictSet_fresh v hk] at hmem
      rcases List.mem_append.1 hmem with h | h
      · exact hfresh k' (by simp [keysOf] at hk' ⊢; tauto) h
      · simp only [List.mem_singleton] at h
        have : k' = k := List.append_cancel_right h
        simp only [keysOf, List.map_cons, List.nodup_cons] at hnd
        exact hnd.1 (this ▸ hk')
    have step : duMerge items ((k, v) :: tl) =
        duMerge (dictSet items (k ++ ['/']) v) tl := rfl
    rw [step, sumValues_duMerge tl (dictSet items (k ++ ['/']) v) hnd' hfresh',
      sumValues_dictSet_fresh v hk]
    simp [sumValues]
    omega

/-- Claim C1, counterexample.  Run: base size 10, `only_dir = False`,
`max_depth = 2`, visits `a` (dir, 1), `a/b` (dir, 2), `a/b/c` (file, 4).
`a/b/c` is at depth 2, so it is not recorded; both recorded directory keys
`a` and `a/b` are string prefixes of `a/b/c` and `a/b` is the deepest
(longest) one, yet the final entries show `a/b/` kept only its own size 2
while the shallower `a/` received `1 + 4`: the size is NOT added to the
deepest (longest-prefix) recorded ancestor. -/
theorem C1_counterexample :
    (stripSep ['a', '/', 'b']).isPrefixOf ['a', '/', 'b', '/', 'c'] = true ∧
    (stripSep ['a']).isPrefixOf ['a', '/', 'b', '/', 'c'] = true ∧
    List.length ['a', '/', 'b'] > List.length ['a'] ∧
    duRecorded false 2 ⟨['a', '/', 'b', '/', 'c'], 4, false⟩ = false ∧
    dictGet (duEntries (duRun 10 false 2
        [⟨['a'], 1, true⟩, ⟨['a', '/', 'b'], 2, true⟩,
          ⟨['a', '/', 'b', '/', 'c'], 4, false⟩]))
      ['a', '/', 'b', '/'] = some 2 ∧
    dictGet (duEntries (duRun 10 false 2
        [⟨['a'], 1, true⟩, ⟨['a', '/', 'b'], 2, true⟩,
          ⟨['a', '/', 'b', '/', 'c'], 4, false⟩]))
      ['a', '/'] = some (1 + 4) := by
  decide

/-- Claim C1 (amended): in aggregation, a visited path that is not recorded
as its own entry has its size added to the FIRST recorded directory entry in
dictionary insertion order whose separator-stripped key is a string prefix of
the path's root-relative path — with preorder traversal this is the
shallowest matching recorded ancestor, not the deepest; all entries recorded
earlier than the matched one fail the prefix test. -/
theorem duStep_folds_into_first_match (od : Bool) (md : Int) (st : DUState)
    (v : Visit) (k : Str) (hrec : duRecorded od md v = false)
    (hk : findFoldKey st.dir_items v.subpath = some k) :
    C1Concl od md st v k := by
  obtain ⟨hpre, d₁, d₂, n, heq, hall⟩ := findFoldKey_eq_some hk
  exact ⟨by simp [duStep, hrec, hk], hpre, d₁, d₂, n, heq, hall⟩

/-- Witness for `duStep_folds_into_first_match` at a concrete state. -/
theorem duStep_folds_into_first_match_witness :
    duRecorded false 1 ⟨['a', '/', 'b'], 4, false⟩ = false ∧
    findFoldKey [(['a'], 1)] ['a', '/', 'b'] = some ['a'] ∧
    C1Concl false 1 ⟨[], [(['a'], 1)], 0, 0, 1, 0⟩ ⟨['a', '/', 'b'], 4, false⟩
      ['a'] :=
  ⟨by decide, by decide,
    duStep_folds_into_first_match false 1 ⟨[], [(['a'], 1)], 0, 0, 1, 0⟩
      ⟨['a', '/', 'b'], 4, false⟩ ['a'] (by decide) (by decide)⟩

/-- Claim C2: for every root and option setting (any visit list with the
distinct, separator-free relative paths a real `walk2` produces), the sum of
all recorded entries' sizes plus the sizes absorbed only into `total_size`
equals `total_size` minus the root's own stat size, and `total_size` is at
least the sum of all entries' values. -/
theorem disk_usage_total_accounting (base_size : Nat) (od : Bool) (md : Int)
    (visits : List Visit) (h1 : (visits.map Visit.subpath).Nodup)
    (h2 : ∀ v ∈ visits, (Visit.subpath v).getLast? ≠ some '/') :
    C2Concl base_size od md visits := by
  have hinv0 : DUInv base_size ⟨[], [], base_size, 0, 1, 0⟩ := by
    refine ⟨by simp [sumValues], by simp [keysOf], by simp [keysOf], ?_, ?_⟩ <;>
      simp [keysOf]
  have hfin : DUInv base_size (duRun base_size od md visits) :=
    duFold_inv od md visits _ hinv0 (by simp [keysOf]) h1 h2
  obtain ⟨htot, hni, hnd, hsi, hsd⟩ := hfin
  have hmerge : sumValues (duEntries (duRun base_size od md visits)) =
      sumValues (duRun base_size od md visits).items +
        sumValues (duRun base_size od md visits).dir_items := by
    refine sumValues_duMerge _ _ hnd ?_
    intro k _ hmem
    exact hsi _ hmem (List.getLast?_concat _)
  constructor
  · rw [hmerge]; omega
  · rw [hmerge]; omega

/-- Witness for `disk_usage_total_accounting` on a concrete run. -/
theorem disk_usage_total_accounting_witness :
    (([⟨['a'], 1, true⟩, ⟨['b'], 2, false⟩, ⟨['a', '/', 'c'], 3, false⟩].map
        Visit.subpath).Nodup) ∧
    (∀ v ∈ [⟨['a'], 1, true⟩, ⟨['b'], 2, false⟩, ⟨['a', '/', 'c'], 3, false⟩],
      (Visit.subpath v).getLast? ≠ some '/') ∧
    C2Concl 5 false 1
      [⟨['a'], 1, true⟩, ⟨['b'], 2, false⟩, ⟨['a', '/', 'c'], 3, false⟩] :=
  ⟨by decide, by decide,
    disk_usage_total_accounting 5 false 1
      [⟨['a'], 1, true⟩, ⟨['b'], 2, false⟩, ⟨['a', '/', 'c'], 3, false⟩]
      (by decide) (by decide)⟩

theorem logFloorAux_spec {B : Nat} (hB : 2 ≤ B) :
    ∀ (fuel size : Nat), 1 ≤ size → size ≤ fuel →
      B ^ logFloorAux B size fuel ≤ size ∧
        size < B ^ (logFloorAux B size fuel + 1)
  | 0, _, h1, h2 => by exfalso; omega
  | fuel + 1, size, h1, h2 => by
    by_cases h : size < B
    · rw [logFloorAux, if_pos h]
      exact ⟨by simpa using h1, by simpa using h⟩
    · push_neg at h
      have hq1 : 1 ≤ size / B := (Nat.one_le_div_iff (by omega)).mpr h
      have hqlt : size / B < size := Nat.div_lt_self (by omega) (by omega)
      have hq2 : size / B ≤ fuel := by omega
      obtain ⟨ih1, ih2⟩ := logFloorAux_spec hB fuel (size / B) hq1 hq2
      rw [logFloorAux, if_neg (by omega)]
      constructor
      · calc B ^ (logFloorAux B (size / B) fuel + 1)
              = B ^ logFloorAux B (size / B) fuel * B := by rw [pow_succ]
          _ ≤ size / B * B := Nat.mul_le_mul_right _ ih1
          _ ≤ size := Nat.div_mul_le_self size B
      · have hmod : size % B < B := Nat.mod_lt _ (by omega)
        have hlt : size < (size / B + 1) * B := by
          calc size = B * (size / B) + size % B := (Nat.div_add_mod size B).symm
            _ < B * (size / B) + B := Nat.add_lt_add_left hmod _
            _ = (size / B + 1) * B := by ring
        calc size < (size / B + 1) * B := hlt
          _ ≤ B ^ (logFloorAux B (size / B) fuel + 1) * B :=
              Nat.mul_le_mul_right _ ih2
          _ = B ^ (logFloorAux B (size / B) fuel + 1 + 1) := (pow_succ _ _).symm

theorem logFloor_spec {B size : Nat} (hB : 2 ≤ B) (h : 1 ≤ size) :
    B ^ logFloor B size ≤ size ∧ size < B ^ (logFloor B size + 1) :=
  logFloorAux_spec hB size size h (le_refl size)

theorem logFloor_le_iff {B size k : Nat} (hB : 2 ≤ B) (h : 1 ≤ size) :
    logFloor B size ≤ k ↔ size < B ^ (k + 1) := by
  obtain ⟨h1, h2⟩ := logFloor_spec hB h
  constructor
  · intro hle
    exact lt_of_lt_of_le h2 (Nat.pow_le_pow_right (by omega) (by omega))
  · intro hlt
    by_contra hc
    push_neg at hc
    have hmono : B ^ (k + 1) ≤ B ^ logFloor B size :=
      Nat.pow_le_pow_right (by omega) (by omega)
    omega

theorem humanize_unix_eq (size : Nat) :
    humanize size unixStr =
      (_to_units (_fix_size size 2 10).2).map fun c =>
        (_adjust_format (_fix_size size 2 10).1 (_fix_size size 2 10).2,
          [c.toUpper]) := rfl

theorem humanize_iec_eq (size : Nat) :
    humanize size iecStr =
      (_to_units (_fix_size size 2 10).2).map fun c =>
        (_adjust_format (_fix_size size 2 10).1 (_fix_size size 2 10).2,
          c.toUpper ::
            (if 0 < (_fix_size size 2 10).2 then ['i', 'B'] else [])) := rfl

theorem humanize_si_eq (size : Nat) :
    humanize size siStr =
      (_to_units (_fix_size size 10 3).2).map fun c =>
        (_adjust_format (_fix_size size 10 3).1 (_fix_size size 10 3).2,
          c :: (if 0 < (_fix_size size 10 3).2 then ['B'] else [])) := rfl

theorem _to_units_isSome_iff (o : Nat) : (_to_units o).isSome ↔ o ≤ 8 := by
  have hlen : MAG_CHARS.length = 8 := rfl
  by_cases ho : 0 < o
  · rw [_to_units, if_pos ho]
    by_cases hlt : o - 1 < MAG_CHARS.length
    · rw [List.getElem?_eq_getElem hlt]
      simp only [Option.isSome_some, true_iff]
      omega
    · rw [List.getElem?_eq_none (by omega)]
      simp only [Option.isSome_none, Bool.false_eq_true, false_iff]
      omega
  · rw [_to_units, if_neg ho]
    simp only [Option.isSome_some, true_iff]
    omega

theorem _fix_size_order (size base exp : Nat) :
    (_fix_size size base exp).2 =
      if 0 < size then logFloor (base ^ exp) size else 0 := rfl

theorem _fix_size_order_le_iff {B : Nat} (size : Nat) (hB : 2 ≤ B) (k : Nat) :
    ((if 0 < size then logFloor B size else 0) ≤ k ↔ size < B ^ (k + 1)) := by
  by_cases hs : 0 < size
  · rw [if_pos hs]
    exact logFloor_le_iff hB hs
  · rw [if_neg hs]
    have hz : size = 0 := by omega
    subst hz
    simp only [Nat.zero_le, true_iff]
    exact pow_pos (by omega) _

/-- Claim C9: the auto-selected magnitude order has no upper clamp and
`_to_units` indexes the 8-element prefix tuple, so `humanize` in an implicit
mode returns a result exactly for sizes below `1024^9` (`unix`, `iec`) resp.
`1000^9` (`si`), and raises `IndexError` (modelled by `none`) at or beyond
that bound. -/
theorem humanize_implicit_isSome_iff (size : Nat) :
    ((humanize size unixStr).isSome ↔ size < 1024 ^ 9) ∧
    ((humanize size iecStr).isSome ↔ size < 1024 ^ 9) ∧
    ((humanize size siStr).isSome ↔ size < 1000 ^ 9) := by
  have h2 : (2 : Nat) ^ 10 = 1024 := by norm_num
  have h10 : (10 : Nat) ^ 3 = 1000 := by norm_num
  refine ⟨?_, ?_, ?_⟩
  · rw [humanize_unix_eq size, Option.isSome_map', _to_units_isSome_iff,
      _fix_size_order, h2]
    exact _fix_size_order_le_iff size (by omega) 8
  · rw [humanize_iec_eq size, Option.isSome_map', _to_units_isSome_iff,
      _fix_size_order, h2]
    exact _fix_size_order_le_iff size (by omega) 8
  · rw [humanize_si_eq size, Option.isSome_map', _to_units_isSome_iff,
      _fix_size_order, h10]
    exact _fix_size_order_le_iff size (by omega) 8


/-- Claim C3, counterexample.  The claim says the selected order is
`round(log_1024(size))`: at `size = 1000` that is `1` (since `1/2 <
log_1024 1000 < 1`), but the code computes the FLOOR (`math.log(size, 2) //
10` floors before `round` is applied), which is `0` at `1000`. -/
theorem C3_counterexample :
    specRoundOrder 1000 = 1 ∧ ((_fix_size 1000 2 10).2 : Int) = 0 ∧
      (1 : Int) ≠ 0 := by
  have hb : (1 : ℝ) < 1024 := by norm_num
  have hy : (0 : ℝ) < 1000 := by norm_num
  have hup : Real.logb 1024 (1000 : ℝ) < 1 := by
    rw [Real.logb_lt_iff_lt_rpow hb hy, Real.rpow_one]
    norm_num
  have hlo : (1 / 2 : ℝ) < Real.logb 1024 (1000 : ℝ) := by
    rw [Real.lt_logb_iff_rpow_lt hb hy]
    apply lt_of_pow_lt_pow_left₀ 2 (by norm_num : (0 : ℝ) ≤ 1000)
    have h0 : (0 : ℝ) ≤ 1024 := by norm_num
    rw [← Real.rpow_natCast ((1024 : ℝ) ^ ((1 : ℝ) / 2)) 2, ← Real.rpow_mul h0]
    rw [show ((1 : ℝ) / 2) * ((2 : ℕ) : ℝ) = 1 by norm_num, Real.rpow_one]
    norm_num
  have hround : round (Real.logb 1024 ((1000 : Nat) : ℝ)) = 1 := by
    rw [round_eq, Int.floor_eq_iff]
    push_cast
    constructor <;> linarith
  refine ⟨?_, by decide, by decide⟩
  rw [specRoundOrder, if_neg (by norm_num), hround]
  norm_num

/-- Claim C3 (amended): for every positive size, humanize in the implicit
`unix` (and `iec`) mode selects the magnitude order FLOOR of
`log_1024(size)` — the order `o` with `1024^o ≤ size < 1024^(o+1)` — (order 0
when size ≤ 0), and the rendered numeric value is size divided by `1024^o`. -/
theorem humanize_binary_order_is_floor_log (size : Nat) (h : 0 < size) :
    C3Concl size := by
  have h2n : (2 : Nat) ^ 10 = 1024 := by norm_num
  have hord : (_fix_size size 2 10).2 = logFloor 1024 size := by
    rw [_fix_size_order, if_pos h, h2n]
  have hval : (_fix_size size 2 10).1 =
      (size : ℚ) / (1024 : ℚ) ^ (_fix_size size 2 10).2 := by
    have hdef : (_fix_size size 2 10).1 =
        (size : ℚ) / (((2 : Nat) : ℚ) ^ 10) ^ (_fix_size size 2 10).2 := rfl
    rw [hdef]
    norm_num
  obtain ⟨hle, hlt⟩ := logFloor_spec (show 2 ≤ 1024 by norm_num) h
  refine ⟨by rw [hord]; exact hle, by rw [hord]; exact hlt, hval, ?_, ?_⟩
  · rw [humanize_unix_eq, hval]
  · rw [humanize_iec_eq, hval]

/-- Witness for `humanize_binary_order_is_floor_log` at size 2048. -/
theorem humanize_binary_order_is_floor_log_witness :
    0 < 2048 ∧ C3Concl 2048 :=
  ⟨by decide, humanize_binary_order_is_floor_log 2048 (by decide)⟩

/-- Claim C6, counterexample.  `humanize(0, 'KiB')` takes the explicit
branch: the order is pinned to 1 by the token and the unit string is the
literal token `KiB`, not `B`. -/
theorem C6_counterexample :
    humanize 0 ['K', 'i', 'B'] = some (['0', '.', '0', '0'], ['K', 'i', 'B']) ∧
    (['K', 'i', 'B'] : Str) ≠ ['B'] := by
  with_unfolding_all decide

/-- Claim C6 (amended): for every unit token that does NOT match the
explicit-unit regexes (all implicit modes and the fallback), `humanize`
applied to size 0 returns the unit string `B`, and the auto-selected order
is 0; explicit tokens instead keep their token-determined order and return
the literal token. -/
theorem humanize_zero_nonexplicit (u : Str) (h : explicitCond u = false) :
    Option.map Prod.snd (humanize 0 u) = some ['B'] ∧
    (_fix_size 0 2 10).2 = 0 ∧ (_fix_size 0 10 3).2 = 0 := by
  refine ⟨?_, rfl, rfl⟩
  rw [humanize]
  simp only [h, Bool.false_eq_true, if_false]
  by_cases h1 : strIn (u.map Char.toLower) unixStr = true
  · simp only [h1, if_true]
    rfl
  · simp only [h1, Bool.false_eq_true, if_false]
    by_cases h2 : u.map Char.toLower = iecStr
    · simp only [h2, if_pos rfl]
      rfl
    · simp only [if_neg h2]
      by_cases h3 : u.map Char.toLower = siStr
      · simp only [h3, if_pos rfl]
        rfl
      · simp only [if_neg h3]
        rfl

/-- Witness for `humanize_zero_nonexplicit` at the token `foo`. -/
theorem humanize_zero_nonexplicit_witness :
    explicitCond ['f', 'o', 'o'] = false ∧
    (Option.map Prod.snd (humanize 0 ['f', 'o', 'o']) = some ['B'] ∧
      (_fix_size 0 2 10).2 = 0 ∧ (_fix_size 0 10 3).2 = 0) :=
  ⟨by decide, humanize_zero_nonexplicit ['f', 'o', 'o'] (by decide)⟩

/-- Claim C4, counterexample.  The token `x` is not one of the implicit mode
names (`iec`, `si`, `unix`) under case-insensitive comparison and matches no
explicit-prefix regex, yet `humanize(2048, 'x')` converts: Python's
`units.lower() in 'unix'` is a SUBSTRING test and `'x'` is a substring of
`'unix'`, so the unix branch runs and yields `('2.00', 'K')`, not the
claimed unchanged `('2048', 'B')` (and no warning exists anywhere in
`humanize`). -/
theorem C4_counterexample :
    (['x'].map Char.toLower ≠ unixStr ∧ ['x'].map Char.toLower ≠ iecStr ∧
      ['x'].map Char.toLower ≠ siStr ∧ explicitCond ['x'] = false) ∧
    humanize 2048 ['x'] = some (['2', '.', '0', '0'], ['K']) ∧
    some (['2', '.', '0', '0'], (['K'] : Str)) ≠ some (natStr 2048, ['B']) := by
  with_unfolding_all decide

/-- Claim C4 (amended): a unit token that matches no explicit-prefix regex,
whose lowercase form is not a SUBSTRING of `'unix'`, and is not `iec`/`si`
case-insensitively, passes through unconverted: the numeric string is the
unchanged size and the unit string is `B`.  (Tokens such as `x`, `ni` or the
empty string are instead treated as the unix mode, and no warning is ever
issued by `humanize`.) -/
theorem humanize_passthrough (size : Nat) (u : Str)
    (h1 : explicitCond u = false)
    (h2 : strIn (u.map Char.toLower) unixStr = false)
    (h3 : u.map Char.toLower ≠ iecStr) (h4 : u.map Char.toLower ≠ siStr) :
    humanize size u = some (natStr size, ['B']) := by
  rw [humanize]
  simp only [h1, h2, Bool.false_eq_true, if_false, if_neg h3, if_neg h4]

/-- Witness for `humanize_passthrough` at the token `foo`, size 7. -/
theorem humanize_passthrough_witness :
    (explicitCond ['f', 'o', 'o'] = false ∧
      strIn (['f', 'o', 'o'].map Char.toLower) unixStr = false ∧
      ['f', 'o', 'o'].map Char.toLower ≠ iecStr ∧
      ['f', 'o', 'o'].map Char.toLower ≠ siStr) ∧
    humanize 7 ['f', 'o', 'o'] = some (natStr 7, ['B']) :=
  ⟨⟨by decide, by decide, by decide, by decide⟩,
    humanize_passthrough 7 ['f', 'o', 'o'] (by decide) (by decide) (by decide)
      (by decide)⟩

/-- Claim C5, counterexample.  The token `K` (a prefix letter with no second
character) is treated as BINARY by the code (`iec_units` is true whenever the
token has length 1), so `humanize(2000, 'K')` gives `1.95` = 2000/1024; the
claim's rule — decimal whenever the second character is not `i` — predicts
`2.00` = 2000/1000.  (Case-insensitivity also fails: `mB`, `kb`, `kiB` match
no explicit regex at all.) -/
theorem C5_counterexample :
    humanize 2000 ['K'] = some (['1', '.', '9', '5'], ['K']) ∧
    _adjust_format ((2000 : ℚ) / (1000 : ℚ) ^ 1) 1 = ['2', '.', '0', '0'] ∧
    (['1', '.', '9', '5'] : Str) ≠ ['2', '.', '0', '0'] := by
  with_unfolding_all decide

/-- Claim C5 (amended): explicit mode is entered case-SENSITIVELY: either the
first character is an uppercase letter of `KMGTPEZY` (any tail), or it is a
letter of `kMGTPEZY` followed by a literal `B`.  The order is the 1-based
index of the letter; the token is treated as binary (divide by
`1024^order`) when its length is 1 or its second character is `i` (length at
most 3), and as decimal (divide by `1000^order`) otherwise; the caller's
literal token is the unit string. -/
theorem humanize_explicit_tokens (i size : Nat) (h : i < 8) : C5Concl i size := by
  unfold C5Concl
  interval_cases i <;>
    refine ⟨?_, ?_, ?_⟩ <;>
    with_unfolding_all rfl

/-- Witness for `humanize_explicit_tokens` at index 1 (`M`), size 5. -/
theorem humanize_explicit_tokens_witness : 1 < 8 ∧ C5Concl 1 5 :=
  ⟨by decide, humanize_explicit_tokens 1 5 (by decide)⟩

/-- Claim C10: explicit-unit detection anchors only at the start of the token
(`re.match`), so any token starting with `kB` (e.g. `kBytes`) or with `MiBx`
is treated as an explicit unit: the order comes from the leading prefix
letter (1 for `k`, 2 for `M`), the scaling follows the code's `iec_units`
rule (decimal here, since the length exceeds 3 or the second character is not
`i`), and the ENTIRE token is returned verbatim as the unit string. -/
theorem humanize_explicit_trailing (t : Str) (size : Nat) :
    humanize size ('k' :: 'B' :: t) =
      some (_adjust_format ((size : ℚ) / (1000 : ℚ) ^ 1) 1, 'k' :: 'B' :: t) ∧
    humanize size ('M' :: 'i' :: 'B' :: 'x' :: t) =
      some (_adjust_format ((size : ℚ) / (1000 : ℚ) ^ 2) 2,
        'M' :: 'i' :: 'B' :: 'x' :: t) := by
  constructor
  · rw [humanize]
    have hc : explicitCond ('k' :: 'B' :: t) = true := rfl
    have hiec : (decide (('k' :: 'B' :: t).length = 1) ||
        (decide (('k' :: 'B' :: t).length ≤ 3) &&
          decide (1 < ('k' :: 'B' :: t).length) &&
          ((('k' :: 'B' :: t).drop 1).headD ' ' == 'i'))) = false := by
      simp
    simp only [hc, if_true, hiec, Bool.false_eq_true, if_false]
    have hidx : MAG_CHARS_UPPER.indexOf ('k'.toUpper) = 0 := rfl
    rw [List.headD_cons, hidx]
    norm_num
  · rw [humanize]
    have hc : explicitCond ('M' :: 'i' :: 'B' :: 'x' :: t) = true := rfl
    have hiec : (decide (('M' :: 'i' :: 'B' :: 'x' :: t).length = 1) ||
        (decide (('M' :: 'i' :: 'B' :: 'x' :: t).length ≤ 3) &&
          decide (1 < ('M' :: 'i' :: 'B' :: 'x' :: t).length) &&
          ((('M' :: 'i' :: 'B' :: 'x' :: t).drop 1).headD ' ' == 'i'))) =
        false := by
      simp
    simp only [hc, if_true, hiec, Bool.false_eq_true, if_false]
    have hidx : MAG_CHARS_UPPER.indexOf ('M'.toUpper) = 1 := rfl
    rw [List.headD_cons, hidx]
    norm_num

theorem strLe_total : ∀ a b : Str, strLe a b = true ∨ strLe b a = true
  | [], _ => Or.inl rfl
  | _ :: _, [] => Or.inr rfl
  | a :: as, b :: bs => by
    rcases lt_trichotomy a b with h | h | h
    · left; rw [strLe, if_pos h]
    · subst h
      rcases strLe_total as bs with ih | ih
      · left; rw [strLe, if_neg (lt_irrefl a), if_neg (lt_irrefl a)]; exact ih
      · right; rw [strLe, if_neg (lt_irrefl a), if_neg (lt_irrefl a)]; exact ih
    · right; rw [strLe, if_pos h]

theorem strLe_trans : ∀ a b c : Str, strLe a b = true → strLe b c = true →
    strLe a c = true
  | [], _, _, _, _ => rfl
  | _ :: _, [], _, h1, _ => by rw [strLe] at h1; exact absurd h1 (by decide)
  | _ :: _, _ :: _, [], _, h2 => by rw [strLe] at h2; exact absurd h2 (by decide)
  | a :: as, b :: bs, c :: cs, h1, h2 => by
    rw [strLe] at h1 h2 ⊢
    by_cases hab : a < b
    · by_cases hbc : b < c
      · rw [if_pos (lt_trans hab hbc)]
      · by_cases hcb : c < b
        · rw [if_neg hbc, if_pos hcb] at h2; exact absurd h2 (by decide)
        · have hbc' : b = c := le_antisymm (not_lt.mp hcb) (not_lt.mp hbc)
          subst hbc'
          rw [if_pos hab]
    · by_cases hba : b < a
      · rw [if_neg hab, if_pos hba] at h1; exact absurd h1 (by decide)
      · have hab' : a = b := le_antisymm (not_lt.mp hba) (not_lt.mp hab)
        subst hab'
        rw [if_neg hab, if_neg hab] at h1
        by_cases hac : a < c
        · rw [if_pos hac]
        · by_cases hca : c < a
          · rw [if_neg hac, if_pos hca] at h2; exact absurd h2 (by decide)
          · have hac' : a = c := le_antisymm (not_lt.mp hca) (not_lt.mp hac)
            subst hac'
            rw [if_neg hac, if_neg hac] at h2 ⊢
            exact strLe_trans as bs cs h1 h2

theorem sInsert_perm (r : α → α → Bool) (x : α) :
    ∀ l : List α, (sInsert r x l).Perm (x :: l)
  | [] => List.Perm.refl _
  | y :: ys => by
    rw [sInsert]
    by_cases h : r x y = true
    · rw [if_pos h]
    · rw [if_neg h]
      exact ((sInsert_perm r x ys).cons y).trans (List.Perm.swap x y ys)

theorem sSort_perm (r : α → α → Bool) : ∀ l : List α, (sSort r l).Perm l
  | [] => List.Perm.refl _
  | x :: xs => (sInsert_perm r x (sSort r xs)).trans ((sSort_perm r xs).cons x)

theorem sInsert_pairwise {r : α → α → Bool}
    (htot : ∀ a b, r a b = true ∨ r b a = true)
    (htr : ∀ a b c, r a b = true → r b c = true → r a c = true) (x : α) :
    ∀ {l : List α}, l.Pairwise (fun a b => r a b = true) →
      (sInsert r x l).Pairwise (fun a b => r a b = true)
  | [], _ => by simp [sInsert]
  | y :: ys, hp => by
    rw [sInsert]
    obtain ⟨hy, hys⟩ := List.pairwise_cons.1 hp
    by_cases h : r x y = true
    · rw [if_pos h]
      refine List.pairwise_cons.2 ⟨?_, hp⟩
      intro z hz
      rcases List.mem_cons.1 hz with rfl | hz'
      · exact h
      · exact htr x y z h (hy z hz')
    · rw [if_neg h]
      have hyx : r y x = true := (htot x y).resolve_left h
      refine List.pairwise_cons.2 ⟨?_, sInsert_pairwise htot htr x hys⟩
      intro z hz
      have hz' := (sInsert_perm r x ys).mem_iff.1 hz
      rcases List.mem_cons.1 hz' with rfl | hz''
      · exact hyx
      · exact hy z hz''

theorem sSort_pairwise {r : α → α → Bool}
    (htot : ∀ a b, r a b = true ∨ r b a = true)
    (htr : ∀ a b c, r a b = true → r b c = true → r a c = true) :
    ∀ l : List α, (sSort r l).Pairwise (fun a b => r a b = true)
  | [] => List.Pairwise.nil
  | x :: xs => sInsert_pairwise htot htr x (sSort_pairwise htot htr xs)

theorem sortCmp_eq (s : Str) (a b : Str × Nat) :
    sortCmp s a b =
      if (if nameKeyStr.isPrefixOf s then (0 : Nat)
          else if sizeKeyStr.isPrefixOf s then 1 else 0) = 0
      then (if revSufStr.isSuffixOf s then strLe b.1 a.1 else strLe a.1 b.1)
      else (if revSufStr.isSuffixOf s then decide (b.2 ≤ a.2)
        else decide (a.2 ≤ b.2)) := rfl

theorem sortCmp_total (s : Str) (a b : Str × Nat) :
    sortCmp s a b = true ∨ sortCmp s b a = true := by
  rw [sortCmp_eq, sortCmp_eq]
  by_cases hidx : (if nameKeyStr.isPrefixOf s then (0 : Nat)
      else if sizeKeyStr.isPrefixOf s then 1 else 0) = 0
  · rw [if_pos hidx, if_pos hidx]
    by_cases hrev : revSufStr.isSuffixOf s = true
    · rw [if_pos hrev, if_pos hrev]
      exact strLe_total b.1 a.1
    · rw [if_neg hrev, if_neg hrev]
      exact strLe_total a.1 b.1
  · rw [if_neg hidx, if_neg hidx]
    by_cases hrev : revSufStr.isSuffixOf s = true <;>
      [rw [if_pos hrev, if_pos hrev]; rw [if_neg hrev, if_neg hrev]] <;>
      simp only [decide_eq_true_eq] <;> omega

theorem sortCmp_trans (s : Str) (a b c : Str × Nat) (h1 : sortCmp s a b = true)
    (h2 : sortCmp s b c = true) : sortCmp s a c = true := by
  rw [sortCmp_eq] at h1 h2 ⊢
  by_cases hidx : (if nameKeyStr.isPrefixOf s then (0 : Nat)
      else if sizeKeyStr.isPrefixOf s then 1 else 0) = 0
  · rw [if_pos hidx] at h1 h2 ⊢
    by_cases hrev : revSufStr.isSuffixOf s = true
    · rw [if_pos hrev] at h1 h2 ⊢
      exact strLe_trans c.1 b.1 a.1 h2 h1
    · rw [if_neg hrev] at h1 h2 ⊢
      exact strLe_trans a.1 b.1 c.1 h1 h2
  · rw [if_neg hidx] at h1 h2 ⊢
    by_cases hrev : revSufStr.isSuffixOf s = true <;>
      [rw [if_pos hrev] at h1 h2 ⊢; rw [if_neg hrev] at h1 h2 ⊢] <;>
      simp only [decide_eq_true_eq] at h1 h2 ⊢ <;> omega

/-- Claim C7, counterexample.  The spec's set includes `name_reverse` as a
descending name sort, but the code's reverse test is `sort_by.endswith('_r')`
— which `name_reverse` fails (it ends in `se`) — so `name_reverse` sorts by
name ASCENDING (and without any warning, since it starts with `name`): the
claim's predicted descending order `[b, a]` is not produced. -/
theorem C7_counterexample :
    sortEntries ['n', 'a', 'm', 'e', '_', 'r', 'e', 'v', 'e', 'r', 's', 'e']
        [(['a'], 1), (['b'], 2)] = ([(['a'], 1), (['b'], 2)], false) ∧
    ([(['a'], 1), (['b'], 2)] : List (Str × Nat)) ≠ [(['b'], 2), (['a'], 1)] := by
  decide

/-- Claim C7 (amended): the formatter warns exactly when `sort_by` starts
with neither `name` nor `size`; the output is always a permutation of the
entries, sorted (stably) by the comparison `sortCmp`: the name key when
`sort_by` starts with `name` (or on the fallback), the size key when it
starts with `size`, descending exactly when `sort_by` ends with the literal
`_r`.  In particular `name_reverse` sorts exactly like `name` — ascending,
without warning. -/
theorem sortEntries_characterisation (sort_by : Str) (c : List (Str × Nat)) :
    ((sortEntries sort_by c).2 = true ↔
      (nameKeyStr.isPrefixOf sort_by = false ∧
        sizeKeyStr.isPrefixOf sort_by = false)) ∧
    ((sortEntries sort_by c).1).Perm c ∧
    ((sortEntries sort_by c).1).Pairwise
      (fun a b => sortCmp sort_by a b = true) ∧
    sortEntries ['n', 'a', 'm', 'e', '_', 'r', 'e', 'v', 'e', 'r', 's', 'e'] c =
      sortEntries ['n', 'a', 'm', 'e'] c := by
  refine ⟨?_, sSort_perm _ c,
    sSort_pairwise (sortCmp_total sort_by) (sortCmp_trans sort_by) c, ?_⟩
  · show sortWarn sort_by = true ↔ _
    rw [sortWarn]
    simp
  · have hcmp : sortCmp ['n', 'a', 'm', 'e', '_', 'r', 'e', 'v', 'e', 'r', 's', 'e'] =
        sortCmp ['n', 'a', 'm', 'e'] := by
      funext a b
      rfl
    rw [sortEntries, sortEntries, hcmp]
    rfl

/-- Claim C8, counterexample.  For `factor = -0.5`, `size = 10`, `fill_size =
round(-5.0) = -5` is a NEGATIVE Python slice index: the fill part
`('='*11)[0:-5]` keeps 6 fill characters and the empty part `(' '*11)[-5:10]`
4 empty ones — the bar is NOT zero-filled and differs from the factor-0
bar. -/
theorem C8_counterexample :
    progress_bar (-1 / 2 : ℚ) 10 =
      ['[', '=', '=', '=', '=', '=', '=', ' ', ' ', ' ', ' ', ']'] ∧
    progress_bar 0 10 =
      ['[', ' ', ' ', ' ', ' ', ' ', ' ', ' ', ' ', ' ', ' ', ']'] ∧
    progress_bar (-1 / 2 : ℚ) 10 ≠ progress_bar 0 10 := by
  with_unfolding_all decide

/-- Claim C8 (amended): `progress_bar` clamps `factor` to at most 1.0 (every
factor at least 1 produces the factor-1 bar) and never clamps below 0; a
negative factor produces the zero-filled factor-0 bar whenever
`round(factor * size)` is 0, but NOT for every negative factor and positive
size: the negative slice index can instead yield a partially filled bar, as
`progress_bar(-0.5, 10)` in the counterexample (6 fill, 4 empty). -/
theorem progress_bar_clamp (factor : ℚ) (size : Nat)
    (fill empty pre post : Str) :
    (1 ≤ factor →
      progress_bar factor size fill empty pre post =
        progress_bar 1 size fill empty pre post) ∧
    (factor < 0 → rndHalfEven (factor * (size : ℚ)) = 0 →
      progress_bar factor size fill empty pre post =
        progress_bar 0 size fill empty pre post) := by
  constructor
  · intro h
    rw [progress_bar, progress_bar]
    by_cases h1 : (1 : ℚ) < factor
    · rw [if_pos h1, if_neg (lt_irrefl (1 : ℚ))]
    · have hfe : factor = 1 := le_antisymm (not_lt.mp h1) h
      subst hfe
      rfl
  · intro hneg h0
    have hz : rndHalfEven 0 = 0 := by with_unfolding_all decide
    rw [progress_bar, progress_bar,
      if_neg (by linarith : ¬ (1 : ℚ) < factor),
      if_neg (by norm_num : ¬ (1 : ℚ) < 0), h0, zero_mul, hz]

/-- Witness for `progress_bar_clamp` at factors 2 and −1/100, size 10. -/
theorem progress_bar_clamp_witness :
    ((1 : ℚ) ≤ 2 ∧ progress_bar 2 10 = progress_bar 1 10) ∧
    ((-1 / 100 : ℚ) < 0 ∧
      rndHalfEven ((-1 / 100 : ℚ) * ((10 : Nat) : ℚ)) = 0 ∧
      progress_bar (-1 / 100 : ℚ) 10 = progress_bar 0 10) :=
  ⟨⟨by norm_num,
      (progress_bar_clamp 2 10 ['='] [' '] ['['] [']']).1 (by norm_num)⟩,
    ⟨by norm_num, by with_unfolding_all decide,
      (progress_bar_clamp (-1 / 100) 10 ['='] [' '] ['['] [']']).2
        (by norm_num) (by with_unfolding_all decide)⟩⟩
